import Mathlib

/-!
Verification development for the AlphaChat chat-answer rendering pipeline
(`ragflow/web/src/pages/chat/markdown-content/index.tsx` and its helpers).

Text is modelled as `List Char`.  The citation-marker grammar is the pair
grammar used by the repository's `currentReg` / `replaceTextByOldReg`
helpers: a current marker is `~~k==` and a legacy marker is `##k$$`, with
`k` a non-empty run of decimal digits (the spec fixes only "a delimiter
pair surrounding a decimal integer" and an upgraded deprecated grammar,
leaving the concrete delimiters to the implementation).
-/

namespace AlphaChat

/-- Marker-pattern matcher: `matchTagged o c l` succeeds iff `l` starts with
`o o ds c c …` for a non-empty digit run `ds`, returning the digits and the
remainder after the closing pair.  This is the anchored form of the regexes
`/~~(\d+)==/` (current markers, `o = '~'`, `c = '='`) and `/##(\d+)\$\$/`
(legacy markers, `o = '#'`, `c = '$'`); as for those regexes the digit run
is maximal. -/
def matchTagged (o c : Char) : List Char → Option (List Char × List Char)
  | x :: y :: rest =>
    if x = o ∧ y = o then
      let ds := rest.takeWhile Char.isDigit
      match rest.dropWhile Char.isDigit with
      | z :: w :: tail => if z = c ∧ w = c ∧ ds ≠ [] then some (ds, tail) else none
      | _ => none
    else none
  | _ => none

/-- One segment of a scanned string: plain text, or a marker's digit run. -/
inductive Seg where
  | text (t : List Char)
  | marker (ds : List Char)
deriving Repr, DecidableEq

/-- Prepend a character to a segment list, merging into a leading text
segment so that maximal runs of unmatched characters form one segment
(matching how a global regex replace leaves the text between matches). -/
def consText (ch : Char) : List Seg → List Seg
  | .text t :: segs => .text (ch :: t) :: segs
  | segs => .text [ch] :: segs

/-- Fuel-driven scanner core: splits a string into text segments and marker
segments, scanning left to right and consuming each marker whole. -/
def scanGo (o c : Char) : Nat → List Char → List Seg
  | 0, _ => []
  | _, [] => []
  | fuel + 1, ch :: cs =>
    match matchTagged o c (ch :: cs) with
    | some (ds, tail) => .marker ds :: scanGo o c fuel tail
    | none => consText ch (scanGo o c fuel cs)

/-- Left-to-right scan of a string for the `o o digits c c` marker pattern,
the shared engine behind `reactStringReplace(text, currentReg, …)` and
`text.replace(oldReg, …)`. -/
def scanTagged (o c : Char) (s : List Char) : List Seg :=
  scanGo o c s.length s

/-- The source text a marker segment was parsed from. -/
def markerText (o c : Char) (ds : List Char) : List Char :=
  o :: o :: ds ++ [c, c]

/-- Flatten a segment list back to text, rendering markers with `mk`. -/
def flatSegs (mk : List Char → List Char) : List Seg → List Char
  | [] => []
  | .text t :: segs => t ++ flatSegs mk segs
  | .marker ds :: segs => mk ds ++ flatSegs mk segs

/-- Number of positions of `s` at which the marker pattern matches. -/
def countOcc (o c : Char) : List Char → Nat
  | [] => 0
  | ch :: cs => (if (matchTagged o c (ch :: cs)).isSome then 1 else 0) + countOcc o c cs

/-- Whether the marker pattern matches anywhere in `s`. -/
def hasMatch (o c : Char) : List Char → Bool
  | [] => false
  | ch :: cs => (matchTagged o c (ch :: cs)).isSome || hasMatch o c cs

/-- Chunk index parsed from a marker's digit run (`Number(match)` in the
code, where the regex capture group is the digit run). -/
def digitsToNat (ds : List Char) : Nat :=
  ds.foldl (fun acc d => 10 * acc + (d.toNat - 48)) 0

/-- Marker indices of a segment list, in order. -/
def segIndices : List Seg → List Nat
  | [] => []
  | .text _ :: segs => segIndices segs
  | .marker ds :: segs => digitsToNat ds :: segIndices segs

/-- Number of marker segments in a segment list. -/
def countMarkSegs : List Seg → Nat
  | [] => 0
  | .text _ :: segs => countMarkSegs segs
  | .marker _ :: segs => 1 + countMarkSegs segs

/-- Current-marker spelling of a digit run: `~~k==`. -/
def mkCurrent (ds : List Char) : List Char :=
  '~' :: '~' :: ds ++ ['=', '=']

/-- Modelled from the spec: `replaceTextByOldReg` (imported from
`../utils`, a file not among the sources) upgrades the deprecated marker
grammar to the current one (§4.1 `upgradeLegacyMarkers`, §6 marker
grammar): every legacy marker `##k$$` is rewritten to the current marker
`~~k==`; text without legacy markers is returned unchanged. -/
def replaceTextByOldReg (s : List Char) : List Char :=
  flatSegs mkCurrent (scanTagged '#' '$' s)

/-- Strip an expected literal pattern from the front of a string. -/
def dropPat : List Char → List Char → Option (List Char)
  | [], l => some l
  | _ :: _, [] => none
  | p :: ps, x :: xs => if x = p then dropPat ps xs else none

/-- Split at the first occurrence of `pat`: `some (pre, post)` means
`l = pre ++ pat ++ post` with `pre` minimal (lazy matching up to the first
occurrence, as in a non-greedy regex group). -/
def splitFirst (pat : List Char) : List Char → Option (List Char × List Char)
  | [] => none
  | x :: xs =>
    match dropPat pat (x :: xs) with
    | some rest => some ([], rest)
    | none =>
      match splitFirst pat xs with
      | some (pre, post) => some (x :: pre, post)
      | none => none


def thinkOpenL : List Char := "<think>".toList
def thinkCloseL : List Char := "</think>".toList
def sectOpenL : List Char := "<section class=\"think\">".toList
def sectCloseL : List Char := "</section>".toList

/-- Fuel-driven core of the reasoning-section extraction. -/
def thinkGo : Nat → List Char → List Char
  | 0, _ => []
  | _, [] => []
  | fuel + 1, x :: xs =>
    match dropPat thinkOpenL (x :: xs) with
    | some rest =>
      match splitFirst thinkCloseL rest with
      | some (content, after) =>
        sectOpenL ++ content ++ sectCloseL ++ thinkGo fuel after
      | none => sectOpenL ++ rest ++ sectCloseL
    | none => x :: thinkGo fuel xs

/-- Modelled from the spec: `replaceThinkToSection` (imported from
`@/utils/chat`, a file not among the sources) extracts reasoning sections
(§4.1 `extractReasoningSections`): each `<think>…</think>` pair becomes a
foldable section block, with lazy matching up to the first close tag, and
an unterminated `<think>` still produces a well-formed section wrapping the
remainder rather than leaking the raw tag (§7 UnterminatedReasoningTag). -/
def replaceThinkToSection (s : List Char) : List Char := thinkGo s.length s

def dispOpenL : List Char := "\\[".toList
def dispCloseL : List Char := "\\]".toList
def inlCloseL : List Char := "\\)".toList

/-- Fuel-driven core of the math-delimiter rewrite.  The Boolean tracks
code-span state: backticks toggle it and nothing is rewritten inside. -/
def mathGo : Nat → Bool → List Char → List Char
  | 0, _, _ => []
  | _, _, [] => []
  | fuel + 1, inCode, ch :: rest =>
    if ch.toNat = 96 then ch :: mathGo fuel (!inCode) rest
    else if inCode then ch :: mathGo fuel inCode rest
    else if ch = '\\' then
      match rest with
      | '[' :: r2 =>
        match splitFirst dispCloseL r2 with
        | some (content, after) =>
          '$' :: '$' :: (content ++ '$' :: '$' :: mathGo fuel false after)
        | none => ch :: mathGo fuel false rest
      | '(' :: r2 =>
        match splitFirst inlCloseL r2 with
        | some (content, after) =>
          '$' :: (content ++ '$' :: mathGo fuel false after)
        | none => ch :: mathGo fuel false rest
      | _ => ch :: mathGo fuel false rest
    else ch :: mathGo fuel false rest

/-- Modelled from the spec: `preprocessLaTeX` (imported from
`@/utils/chat`, a file not among the sources) rewrites bracket-style math
delimiters into the canonical dollar form (§4.1 `normalizeMathDelimiters`):
display math `\[…\]` becomes `$$…$$` and inline math `\(…\)` becomes
`$…$`, without altering delimiter content; delimiters inside code spans
are not rewritten (code state is tracked across backticks). -/
def preprocessLaTeX (s : List Char) : List Char := mathGo s.length false s

def scriptOpenL : List Char := "<script>".toList
def scriptCloseL : List Char := "</script>".toList

/-- Fuel-driven core of the sanitizer model. -/
def sanitizeGo : Nat → List Char → List Char
  | 0, _ => []
  | _, [] => []
  | fuel + 1, x :: xs =>
    match dropPat scriptOpenL (x :: xs) with
    | some rest =>
      match splitFirst scriptCloseL rest with
      | some (_, after) => sanitizeGo fuel after
      | none => []
    | none => x :: sanitizeGo fuel xs

/-- Modelled from the spec: the Sanitizer (§4.5; `DOMPurify.sanitize` in
the code, an external library).  The contract strips executable markup and
keeps benign text; this model captures the script-element part of that
contract: `<script>…</script>` elements are removed wholesale, an
unterminated `<script>` removes the remainder, and all other characters
are kept. -/
def sanitizeHtml (s : List Char) : List Char := sanitizeGo s.length s

/-- The composed normalization sequence of `contentWithCursor`
(index.tsx:56-57): `replaceTextByOldReg` first, then the `pipe`
composition `replaceThinkToSection` then `preprocessLaTeX`. -/
def normalizePipeline (s : List Char) : List Char :=
  preprocessLaTeX (replaceThinkToSection (replaceTextByOldReg s))

/-- `contentWithCursor` (index.tsx:50-58): empty content is replaced by
the localized searching placeholder before normalization; the
`DOMPurify.sanitize(content)` call present in the source is commented out,
so the raw content itself flows into the normalization passes. -/
def contentWithCursor (content placeholder : List Char) : List Char :=
  let text := if content = [] then placeholder else content
  normalizePipeline text

/-- A retrieved chunk, after the reference-table shape of spec §6 and the
`IReferenceChunk` fields used by index.tsx. -/
structure IReferenceChunk where
  id : String
  document_id : String
  content : List Char
  image_id : Option String
  doc_type : Option String
deriving Repr, DecidableEq

/-- A document aggregate (`doc_aggs` entry), spec §6. -/
structure IDocAgg where
  doc_id : String
  doc_name : String
  url : Option String
deriving Repr, DecidableEq

/-- The reference table handed to `MarkdownContent`. -/
structure IReference where
  chunks : List IReferenceChunk
  doc_aggs : List IDocAgg
deriving Repr, DecidableEq

/-- JavaScript truthiness of an optional string (`undefined` and the empty
string are falsy). -/
def truthy : Option String → Bool
  | none => false
  | some s => !s.isEmpty

/-- Modelled from the spec: `getExtension` (imported from
`@/utils/document-util`, a file not among the sources) yields "the doc's
file type" (§4.4): the lowercased suffix after the final dot of the
document name, empty when there is no dot. -/
def getExtension (name : String) : String :=
  let parts := name.splitOn "."
  if parts.length ≤ 1 then "" else (parts.getLastD "").toLower

/-- Modelled from the spec: `showImage` (imported from `@/utils/chat`, a
file not among the sources) decides whether "the chunk's type indicates
visual media" (§4.4 step 3); per the §8 media scenario, `doc_type`
"image" renders inline media. -/
def showImage (docType : Option String) : Bool :=
  docType == some "image"

/-- The fields computed by `getReferenceInfo`. -/
structure ReferenceInfo where
  documentUrl : Option String
  fileThumbnail : Option String
  fileExtension : String
  imageId : Option String
  chunkItem : Option IReferenceChunk
  documentId : Option String
  document : Option IDocAgg
deriving Repr, DecidableEq

/-- `getReferenceInfo` (index.tsx:102-126): resolve a chunk index to the
chunk, its owning document aggregate and the derived display fields.  The
aggregate lookup compares `x.doc_id === chunkItem?.document_id`, which
matches no aggregate when the chunk is absent (`undefined` equals no
string), and the thumbnail/extension fields fall back to empty values
when `documentId` is not truthy. -/
def getReferenceInfo (ref : IReference) (thumbs : String → Option String)
    (chunkIndex : Nat) : ReferenceInfo :=
  let chunkItem := ref.chunks[chunkIndex]?
  let document :=
    match chunkItem with
    | none => none
    | some ch => ref.doc_aggs.find? fun x => x.doc_id == ch.document_id
  let documentId := document.map IDocAgg.doc_id
  let documentUrl := document.bind IDocAgg.url
  let fileThumbnail := if truthy documentId then documentId.bind thumbs else none
  let fileExtension :=
    if truthy documentId then getExtension ((document.map IDocAgg.doc_name).getD "") else ""
  let imageId := chunkItem.bind IReferenceChunk.image_id
  ⟨documentUrl, fileThumbnail, fileExtension, imageId, chunkItem, documentId, document⟩

/-- Effect of activating a citation's document button. -/
inductive ClickAction where
  | openUrl (url : String)
  | invokeCallback (documentId : String) (chunk : Option IReferenceChunk)
  | noop
deriving Repr, DecidableEq

/-- `handleDocumentButtonClick` (index.tsx:65-83): for a non-pdf document
a truthy url opens externally and a falsy url does nothing (early
return); for a pdf document the `clickDocumentButton` callback receives
`(documentId, chunk)`. -/
def handleDocumentButtonClick (documentId : String) (chunk : Option IReferenceChunk)
    (isPdf : Bool) (documentUrl : Option String) : ClickAction :=
  if !isPdf then
    if truthy documentUrl then ClickAction.openUrl (documentUrl.getD "")
    else ClickAction.noop
  else ClickAction.invokeCallback documentId chunk

/-- The document row of a citation popover (index.tsx:165-192): thumbnail
or file-type icon, document name, and the link's click behaviour. -/
structure DocSection where
  fileThumbnail : Option String
  fileExtension : String
  docName : Option String
  onClick : ClickAction
deriving Repr, DecidableEq

/-- A citation popover's payload (index.tsx:140-195). -/
structure PopoverPayload where
  imageSection : Option String
  contentHtml : List Char
  docSection : Option DocSection
deriving Repr, DecidableEq

/-- `getPopoverContent` (index.tsx:128-198): the optional chunk-image
block (truthy `imageId`), the sanitized chunk content
(`DOMPurify.sanitize(chunkItem?.content ?? '')`), and — only for a truthy
`documentId` — the document row with its click handler. -/
def getPopoverContent (ref : IReference) (thumbs : String → Option String)
    (chunkIndex : Nat) : PopoverPayload :=
  let info := getReferenceInfo ref thumbs chunkIndex
  { imageSection := if truthy info.imageId then info.imageId else none
    contentHtml := sanitizeHtml ((info.chunkItem.map IReferenceChunk.content).getD [])
    docSection :=
      if truthy info.documentId then
        some { fileThumbnail := if truthy info.fileThumbnail then info.fileThumbnail else none
               fileExtension := info.fileExtension
               docName := info.document.map IDocAgg.doc_name
               onClick := handleDocumentButtonClick (info.documentId.getD "") info.chunkItem
                   (info.fileExtension == "pdf") info.documentUrl }
      else none }

/-- The render decision for a resolved marker (spec §3 RenderDecision). -/
inductive RenderDecision where
  | inlineMedia (imageId : Option String) (onClick : ClickAction)
  | citationPopover (payload : PopoverPayload)
deriving Repr, DecidableEq

/-- A node of the rendered output: residual text, a resolved citation
(annotation node carrying its chunk index), or an ordinary element. -/
inductive RNode where
  | text (v : List Char)
  | annot (chunkIndex : Nat) (decision : RenderDecision)
  | element (tag : String) (children : List RNode)

/-- The branch taken for one marker inside `renderReference`
(index.tsx:208-229): inline media when `showImage(chunkItem?.doc_type)`,
otherwise a citation popover. -/
def renderDecisionOf (ref : IReference) (thumbs : String → Option String)
    (n : Nat) : RenderDecision :=
  let info := getReferenceInfo ref thumbs n
  let docType := info.chunkItem.bind IReferenceChunk.doc_type
  if showImage docType then
    RenderDecision.inlineMedia info.imageId
      (if truthy info.documentId then
        handleDocumentButtonClick (info.documentId.getD "") info.chunkItem
            (info.fileExtension == "pdf") info.documentUrl
       else ClickAction.noop)
  else RenderDecision.citationPopover (getPopoverContent ref thumbs n)

/-- Render one resolved marker as an annotation node. -/
def renderCitation (ref : IReference) (thumbs : String → Option String)
    (n : Nat) : RNode :=
  RNode.annot n (renderDecisionOf ref thumbs n)

/-- Render one scanned segment. -/
def renderSeg (ref : IReference) (thumbs : String → Option String) : Seg → RNode
  | .text t => RNode.text t
  | .marker ds => renderCitation ref thumbs (digitsToNat ds)

/-- `renderReference` (index.tsx:200-239): `reactStringReplace(text,
currentReg, …)` replaces every current-marker occurrence `~~k==` by its
rendered citation — the regex capture group is the digit run, so
`getChunkIndex` is `Number` of the digits — while the text between
matches stays as plain text nodes. -/
def renderReference (ref : IReference) (thumbs : String → Option String)
    (s : List Char) : List RNode :=
  (scanTagged '~' '=' s).map (renderSeg ref thumbs)

/-- Chunk indices of the annotation nodes of a flat node list, in order. -/
def annIdxOfList : List RNode → List Nat
  | [] => []
  | RNode.annot i _ :: ns => i :: annIdxOfList ns
  | _ :: ns => annIdxOfList ns

/-- Text values of a flat node list, in order. -/
def textValsOfList : List RNode → List (List Char)
  | [] => []
  | RNode.text v :: ns => v :: textValsOfList ns
  | _ :: ns => textValsOfList ns

/-- The image id carried by an inline-media annotation node, if the node
is one. -/
def mediaIdOf : RNode → Option (Option String)
  | RNode.annot _ (RenderDecision.inlineMedia i _) => some i
  | _ => none

/-- Whether a node is a citation-popover annotation node. -/
def isPopoverNode : RNode → Bool
  | RNode.annot _ (RenderDecision.citationPopover _) => true
  | _ => false

/-- A node of the document tree at the time the wrap plugin runs: text or
element (spec §3 DocumentTree; raw spans are expanded by `rehypeRaw` only
after `rehypeWrapReference` in the plugin list, index.tsx:243). -/
inductive HNode where
  | text (value : List Char)
  | element (tagName : String) (children : List HNode)

/-- The wrap condition of `rehypeWrapReference` (index.tsx:89-92): the
immediate parent's tag (`ancestors.at(-1).tagName`) is neither
`custom-typography` nor `code`.  The root node has no `tagName`; the
empty string models that (and compares unequal to both names, as
`undefined` does). -/
def shouldWrap (parentTag : String) : Bool :=
  parentTag != "custom-typography" && parentTag != "code"

mutual
/-- `rehypeWrapReference` (index.tsx:85-100): every text node whose
immediate parent satisfies the wrap condition is replaced in place by a
`custom-typography` element wrapping the text; the traversal does not
process the new element's text child (its parent is then
`custom-typography`). -/
def wrapNode (parentTag : String) : HNode → HNode
  | .text v =>
    if shouldWrap parentTag then HNode.element "custom-typography" [HNode.text v]
    else HNode.text v
  | .element tag cs => HNode.element tag (wrapList tag cs)
def wrapList (tag : String) : List HNode → List HNode
  | [] => []
  | n :: ns => wrapNode tag n :: wrapList tag ns
end

mutual
/-- The component table of the `Markdown` element (index.tsx:246-452):
a `custom-typography` element renders its text child through
`renderReference`; every other element renders its children recursively;
text stays text. -/
def renderTree (ref : IReference) (thumbs : String → Option String) : HNode → RNode
  | .text v => RNode.text v
  | .element tag cs =>
    if tag = "custom-typography" then
      match cs with
      | [HNode.text v] => RNode.element tag (renderReference ref thumbs v)
      | _ => RNode.element tag (renderList ref thumbs cs)
    else RNode.element tag (renderList ref thumbs cs)
def renderList (ref : IReference) (thumbs : String → Option String) :
    List HNode → List RNode
  | [] => []
  | n :: ns => renderTree ref thumbs n :: renderList ref thumbs ns
end

/-- The tree pipeline for one answer: wrap the text nodes, then render. -/
def resolveTree (ref : IReference) (thumbs : String → Option String)
    (t : HNode) : RNode :=
  renderTree ref thumbs (wrapNode "" t)

mutual
/-- Marker indices contributed by the text nodes the wrap pass processes
(parent-tag sensitive), in document order. -/
def treeMarkerIndices (parentTag : String) : HNode → List Nat
  | .text v =>
    if shouldWrap parentTag then segIndices (scanTagged '~' '=' v) else []
  | .element tag cs => treeMarkerIndicesList tag cs
def treeMarkerIndicesList (tag : String) : List HNode → List Nat
  | [] => []
  | n :: ns => treeMarkerIndices tag n ++ treeMarkerIndicesList tag ns
end

mutual
/-- Positional marker-occurrence count over the processed text nodes. -/
def treeMarkerOcc (parentTag : String) : HNode → Nat
  | .text v => if shouldWrap parentTag then countOcc '~' '=' v else 0
  | .element tag cs => treeMarkerOccList tag cs
def treeMarkerOccList (tag : String) : List HNode → Nat
  | [] => 0
  | n :: ns => treeMarkerOcc tag n + treeMarkerOccList tag ns
end

mutual
/-- Chunk indices of all annotation nodes of a rendered tree, in order. -/
def annIndices : RNode → List Nat
  | .text _ => []
  | .annot i _ => [i]
  | .element _ cs => annIndicesList cs
def annIndicesList : List RNode → List Nat
  | [] => []
  | n :: ns => annIndices n ++ annIndicesList ns
end

mutual
/-- No element of the tree carries the reserved `custom-typography` tag —
true of every tree the markdown parser yields, since that tag is created
only by the wrap pass itself (spec §3: "an Element with a reserved
tag"). -/
def ctFree : HNode → Bool
  | .text _ => true
  | .element tag cs => tag != "custom-typography" && ctFreeList cs
def ctFreeList : List HNode → Bool
  | [] => true
  | n :: ns => ctFree n && ctFreeList ns
end

mutual
/-- Every text node of a rendered tree outside `code` elements is free of
marker occurrences.  Annotation payloads hold sanitized chunk content,
not answer text, and are not inspected. -/
def rTextMarkerFree (underCode : Bool) : RNode → Bool
  | .text v => underCode || !hasMatch '~' '=' v
  | .annot _ _ => true
  | .element tag cs => rTextMarkerFreeList (underCode || tag == "code") cs
def rTextMarkerFreeList (underCode : Bool) : List RNode → Bool
  | [] => true
  | n :: ns => rTextMarkerFree underCode n && rTextMarkerFreeList underCode ns
end

theorem matchTagged_none_nil (o c : Char) : matchTagged o c [] = none := rfl

theorem matchTagged_none_single (o c : Char) (x : Char) :
    matchTagged o c [x] = none := rfl

/-- Structure of a successful match: the input is exactly the marker text
followed by the remainder, the digits are non-empty and are digits. -/
theorem matchTagged_some (o c : Char) {l ds tail : List Char}
    (h : matchTagged o c l = some (ds, tail)) :
    l = markerText o c ds ++ tail ∧ ds ≠ [] ∧ (∀ d ∈ ds, d.isDigit) := by
  match l with
  | [] => exact absurd h (by simp [matchTagged])
  | [x] => exact absurd h (by simp [matchTagged])
  | x :: y :: rest =>
    simp only [matchTagged] at h
    split at h
    case isTrue hxy =>
      split at h
      case h_1 z w t heq =>
        split at h
        case isTrue hzw =>
          obtain ⟨hds, ht⟩ := Prod.mk.injEq .. ▸ Option.some.injEq .. ▸ h
          refine ⟨?_, ?_, ?_⟩
          · have hrest : rest.takeWhile Char.isDigit ++ rest.dropWhile Char.isDigit = rest :=
              List.takeWhile_append_dropWhile _ _
            have hr2 : rest = ds ++ (c :: c :: tail) := by
              rw [← hrest, heq, hds, hzw.1, hzw.2.1, ht]
            rw [hxy.1, hxy.2, hr2]
            simp [markerText]
          · rw [← hds]; exact hzw.2.2
          · intro d hdm
            rw [← hds] at hdm
            exact List.mem_takeWhile_imp hdm
        case isFalse hzw => cases h
      case h_2 => cases h
    case isFalse hxy => cases h

/-- A successful match consumes at least five characters. -/
theorem matchTagged_some_length (o c : Char) {l ds tail : List Char}
    (h : matchTagged o c l = some (ds, tail)) :
    tail.length + 5 ≤ l.length := by
  obtain ⟨hl, hds, -⟩ := matchTagged_some o c h
  have : 1 ≤ ds.length := List.length_pos.mpr hds
  rw [hl]
  simp [markerText]
  omega

/-- The scanner is independent of the fuel once the fuel covers the input. -/
theorem scanGo_fuel (o c : Char) :
    ∀ f₁ f₂ s, s.length ≤ f₁ → s.length ≤ f₂ →
      scanGo o c f₁ s = scanGo o c f₂ s := by
  intro f₁
  induction f₁ with
  | zero =>
    intro f₂ s h1 _
    have : s = [] := List.eq_nil_of_length_eq_zero (Nat.le_zero.mp h1)
    subst this
    cases f₂ <;> rfl
  | succ n ih =>
    intro f₂ s h1 h2
    cases s with
    | nil => cases f₂ <;> rfl
    | cons ch cs =>
      cases f₂ with
      | zero => simp at h2
      | succ m =>
        simp only [scanGo]
        cases hm : matchTagged o c (ch :: cs) with
        | some p =>
          obtain ⟨ds, tail⟩ := p
          have hlen := matchTagged_some_length o c hm
          simp only [List.length_cons] at h1 h2 hlen
          show Seg.marker ds :: scanGo o c n tail = Seg.marker ds :: scanGo o c m tail
          rw [ih m tail (by omega) (by omega)]
        | none =>
          simp only [List.length_cons] at h1 h2
          show consText ch (scanGo o c n cs) = consText ch (scanGo o c m cs)
          rw [ih m cs (by omega) (by omega)]

theorem scanTagged_nil (o c : Char) : scanTagged o c [] = [] := rfl

/-- Unfolding: a match at the head produces a marker segment. -/
theorem scanTagged_cons_some (o c : Char) {ch : Char} {cs ds tail : List Char}
    (h : matchTagged o c (ch :: cs) = some (ds, tail)) :
    scanTagged o c (ch :: cs) = .marker ds :: scanTagged o c tail := by
  have hlen := matchTagged_some_length o c h
  simp only [scanTagged, List.length_cons, scanGo, h]
  rw [scanGo_fuel o c cs.length tail.length tail (by simp at hlen; omega) le_rfl]

/-- Unfolding: no match at the head keeps the character as text. -/
theorem scanTagged_cons_none (o c : Char) {ch : Char} {cs : List Char}
    (h : matchTagged o c (ch :: cs) = none) :
    scanTagged o c (ch :: cs) = consText ch (scanTagged o c cs) := by
  simp only [scanTagged, List.length_cons, scanGo, h]

theorem takeWhile_all_append (p : Char → Bool) (a b : List Char)
    (h : ∀ x ∈ a, p x) : (a ++ b).takeWhile p = a ++ b.takeWhile p := by
  induction a with
  | nil => simp
  | cons x xs ih =>
    simp only [List.cons_append, List.takeWhile_cons_of_pos (h x (by simp))]
    rw [ih fun y hy => h y (by simp [hy])]

theorem dropWhile_all_append (p : Char → Bool) (a b : List Char)
    (h : ∀ x ∈ a, p x) : (a ++ b).dropWhile p = b.dropWhile p := by
  induction a with
  | nil => simp
  | cons x xs ih =>
    simp only [List.cons_append, List.dropWhile_cons_of_pos (h x (by simp))]
    exact ih fun y hy => h y (by simp [hy])

/-- The matcher succeeds on a marker text followed by anything. -/
theorem matchTagged_marker (o c : Char) (hc : ¬ c.isDigit) {ds : List Char} (tail : List Char)
    (hne : ds ≠ []) (hdig : ∀ d ∈ ds, d.isDigit) :
    matchTagged o c (markerText o c ds ++ tail) = some (ds, tail) := by
  have htw : (ds ++ c :: c :: tail).takeWhile Char.isDigit = ds := by
    rw [takeWhile_all_append _ _ _ hdig, List.takeWhile_cons_of_neg (by simpa using hc)]
    simp
  have hdw : (ds ++ c :: c :: tail).dropWhile Char.isDigit = c :: c :: tail := by
    rw [dropWhile_all_append _ _ _ hdig, List.dropWhile_cons_of_neg (by simpa using hc)]
  have hassoc : markerText o c ds ++ tail = o :: o :: (ds ++ c :: c :: tail) := by
    simp [markerText]
  rw [hassoc]
  simp only [matchTagged, htw, hdw, if_pos (And.intro rfl rfl)]
  simp [hne]

/-- A match at the head of a string survives appending more text. -/
theorem matchTagged_append (o c : Char) (hc : ¬ c.isDigit) {l ds tail : List Char} (e : List Char)
    (h : matchTagged o c l = some (ds, tail)) :
    matchTagged o c (l ++ e) = some (ds, tail ++ e) := by
  obtain ⟨hl, hne, hdig⟩ := matchTagged_some o c h
  rw [hl, List.append_assoc]
  exact matchTagged_marker o c hc (tail ++ e) hne hdig

/-- If the matcher fails on a string it fails on every prefix of it. -/
theorem matchTagged_prefix_none (o c : Char) (hc : ¬ c.isDigit) {a b : List Char}
    (h : matchTagged o c (a ++ b) = none) : matchTagged o c a = none := by
  cases hm : matchTagged o c a with
  | none => rfl
  | some p =>
    obtain ⟨ds, t⟩ := p
    rw [matchTagged_append o c hc b hm] at h
    cases h

theorem matchTagged_head_ne (o c : Char) {x : Char} (hx : x ≠ o) (l : List Char) :
    matchTagged o c (x :: l) = none := by
  cases l with
  | nil => rfl
  | cons y r => simp only [matchTagged, if_neg (fun h : x = o ∧ y = o => hx h.1)]

theorem matchTagged_second_ne (o c : Char) {y : Char} (hy : y ≠ o) (x : Char) (l : List Char) :
    matchTagged o c (x :: y :: l) = none := by
  simp only [matchTagged, if_neg (fun h : x = o ∧ y = o => hy h.2)]

theorem flat_consText (mk : List Char → List Char) (ch : Char) (segs : List Seg) :
    flatSegs mk (consText ch segs) = ch :: flatSegs mk segs := by
  cases segs with
  | nil => rfl
  | cons sg rest =>
    cases sg with
    | text t => rfl
    | marker ds => rfl

/-- Scanning is a partition of the input: flattening the segments with the
original marker spelling reconstructs the scanned string. -/
theorem flat_scan (o c : Char) : ∀ s, flatSegs (markerText o c) (scanTagged o c s) = s := by
  have H : ∀ n s, s.length ≤ n → flatSegs (markerText o c) (scanTagged o c s) = s := by
    intro n
    induction n with
    | zero =>
      intro s hs
      have : s = [] := List.eq_nil_of_length_eq_zero (Nat.le_zero.mp hs)
      subst this
      rfl
    | succ n ih =>
      intro s hs
      cases s with
      | nil => rfl
      | cons ch cs =>
        cases hm : matchTagged o c (ch :: cs) with
        | some p =>
          obtain ⟨ds, tail⟩ := p
          obtain ⟨hl, -, -⟩ := matchTagged_some o c hm
          have hlen := matchTagged_some_length o c hm
          simp only [List.length_cons] at hs hlen
          rw [scanTagged_cons_some o c hm]
          simp only [flatSegs]
          rw [ih tail (by omega), ← hl]
        | none =>
          simp only [List.length_cons] at hs
          rw [scanTagged_cons_none o c hm, flat_consText]
          rw [ih cs (by omega)]
  exact fun s => H s.length s le_rfl

/-- No text segment produced by the scanner contains a marker occurrence:
all markers are consumed, none survives in the residual text. -/
theorem scan_text_no_match (o c : Char) (hc : ¬ c.isDigit) :
    ∀ s t, Seg.text t ∈ scanTagged o c s → hasMatch o c t = false := by
  have H : ∀ n s, s.length ≤ n →
      ∀ t, Seg.text t ∈ scanTagged o c s → hasMatch o c t = false := by
    intro n
    induction n with
    | zero =>
      intro s hs t hmem
      have : s = [] := List.eq_nil_of_length_eq_zero (Nat.le_zero.mp hs)
      subst this
      simp [scanTagged_nil] at hmem
    | succ n ih =>
      intro s hs t hmem
      cases s with
      | nil => simp [scanTagged_nil] at hmem
      | cons ch cs =>
        simp only [List.length_cons] at hs
        cases hm : matchTagged o c (ch :: cs) with
        | some p =>
          obtain ⟨ds, tail⟩ := p
          have hlen := matchTagged_some_length o c hm
          simp only [List.length_cons] at hlen
          rw [scanTagged_cons_some o c hm] at hmem
          rcases List.mem_cons.mp hmem with heq | hmem2
          · cases heq
          · exact ih tail (by omega) t hmem2
        | none =>
          rw [scanTagged_cons_none o c hm] at hmem
          cases hsc : scanTagged o c cs with
          | nil =>
            rw [hsc] at hmem
            simp only [consText, List.mem_singleton] at hmem
            obtain rfl := (Seg.text.injEq .. ▸ hmem :)
            simp [hasMatch, matchTagged]
          | cons sg segs =>
            cases sg with
            | text t0 =>
              rw [hsc] at hmem
              simp only [consText] at hmem
              rcases List.mem_cons.mp hmem with heq | hmem2
              · obtain rfl := (Seg.text.injEq .. ▸ heq :)
                have ht0 : hasMatch o c t0 = false :=
                  ih cs (by omega) t0 (by rw [hsc]; exact List.mem_cons_self _ _)
                have hcs : cs = t0 ++ flatSegs (markerText o c) segs := by
                  have := flat_scan o c cs
                  rw [hsc] at this
                  simp only [flatSegs] at this
                  exact this.symm
                have hhd : matchTagged o c (ch :: t0) = none := by
                  refine matchTagged_prefix_none o c hc (b := flatSegs (markerText o c) segs) ?_
                  rw [List.cons_append, ← hcs]
                  exact hm
                simp [hasMatch, hhd, ht0]
              · exact ih cs (by omega) t (by rw [hsc]; exact List.mem_cons_of_mem _ hmem2)
            | marker ds =>
              rw [hsc] at hmem
              simp only [consText] at hmem
              rcases List.mem_cons.mp hmem with heq | hmem2
              · obtain rfl := (Seg.text.injEq .. ▸ heq :)
                simp [hasMatch, matchTagged]
              · exact ih cs (by omega) t (by rw [hsc]; exact hmem2)
  exact fun s => H s.length s le_rfl

theorem countMarkSegs_consText (ch : Char) (segs : List Seg) :
    countMarkSegs (consText ch segs) = countMarkSegs segs := by
  cases segs with
  | nil => rfl
  | cons sg rest =>
    cases sg with
    | text t => rfl
    | marker ds => rfl

theorem countOcc_non_open_append (o c : Char) (a r : List Char)
    (h : ∀ x ∈ a, x ≠ o) : countOcc o c (a ++ r) = countOcc o c r := by
  induction a with
  | nil => rfl
  | cons x xs ih =>
    simp only [List.cons_append, countOcc,
      matchTagged_head_ne o c (h x (by simp)) _, Option.isSome_none,
      Bool.false_eq_true, if_false, Nat.zero_add]
    exact ih fun y hy => h y (by simp [hy])

/-- The scanner finds exactly the positional occurrences of the marker
pattern: its marker-segment count equals the number of positions of the
input at which the pattern matches. -/
theorem scan_count (o c : Char) (ho : ¬ o.isDigit) (hoc : c ≠ o) :
    ∀ s, countMarkSegs (scanTagged o c s) = countOcc o c s := by
  have H : ∀ n s, s.length ≤ n → countMarkSegs (scanTagged o c s) = countOcc o c s := by
    intro n
    induction n with
    | zero =>
      intro s hs
      have : s = [] := List.eq_nil_of_length_eq_zero (Nat.le_zero.mp hs)
      subst this
      rfl
    | succ n ih =>
      intro s hs
      cases s with
      | nil => rfl
      | cons ch cs =>
        simp only [List.length_cons] at hs
        cases hm : matchTagged o c (ch :: cs) with
        | some p =>
          obtain ⟨ds, tail⟩ := p
          have hlen := matchTagged_some_length o c hm
          simp only [List.length_cons] at hlen
          obtain ⟨hl, hne, hdig⟩ := matchTagged_some o c hm
          rw [scanTagged_cons_some o c hm]
          have hstep : countMarkSegs (Seg.marker ds :: scanTagged o c tail) =
              1 + countMarkSegs (scanTagged o c tail) := rfl
          rw [hstep, ih tail (by omega)]
          have hcs : cs = o :: (ds ++ [c, c] ++ tail) := by
            have : ch :: cs = o :: o :: (ds ++ [c, c] ++ tail) := by
              rw [hl]; simp [markerText]
            exact (List.cons.injEq .. ▸ this).2
          obtain ⟨d0, ds2, rfl⟩ : ∃ d0 ds2, ds = d0 :: ds2 := by
            cases ds with
            | nil => exact absurd rfl hne
            | cons a b => exact ⟨a, b, rfl⟩
          have hd0 : d0 ≠ o := fun hh =>
            ho (hh ▸ hdig d0 (by simp))
          have hocc : countOcc o c cs = countOcc o c tail := by
            rw [hcs]
            simp only [List.cons_append, List.append_assoc, countOcc]
            rw [matchTagged_second_ne o c hd0]
            simp only [Option.isSome_none, Bool.false_eq_true, if_false, Nat.zero_add]
            have hall : ∀ x ∈ (d0 :: ds2) ++ [c, c], x ≠ o := by
              intro x hx
              rcases List.mem_append.mp hx with hx1 | hx2
              · exact fun hh => ho (hh ▸ hdig x hx1)
              · rcases List.mem_cons.mp hx2 with rfl | hx3
                · exact hoc
                · rcases List.mem_singleton.mp hx3 with rfl
                  exact hoc
            have := countOcc_non_open_append o c ((d0 :: ds2) ++ [c, c]) tail hall
            simpa [List.append_assoc] using this
          rw [← hocc]
          simp [countOcc, hm]
        | none =>
          rw [scanTagged_cons_none o c hm, countMarkSegs_consText]
          rw [ih cs (by omega)]
          simp [countOcc, hm]
  exact fun s => H s.length s le_rfl

theorem segIndices_length (segs : List Seg) :
    (segIndices segs).length = countMarkSegs segs := by
  induction segs with
  | nil => rfl
  | cons sg rest ih =>
    cases sg with
    | text t => simpa [segIndices, countMarkSegs] using ih
    | marker ds =>
      simp only [segIndices, countMarkSegs, List.length_cons, ih]
      omega


theorem dropPat_structure :
    ∀ p l r, dropPat p l = some r → l = p ++ r := by
  intro p
  induction p with
  | nil =>
    intro l r h
    simp only [dropPat, Option.some.injEq] at h
    simp [h]
  | cons x xs ih =>
    intro l r h
    cases l with
    | nil => cases h
    | cons y ys =>
      simp only [dropPat] at h
      split at h
      case isTrue heq => rw [heq, List.cons_append]; rw [ih ys r h]
      case isFalse => cases h

theorem splitFirst_structure (pat : List Char) :
    ∀ l pre post, splitFirst pat l = some (pre, post) →
      l = pre ++ pat ++ post := by
  intro l
  induction l with
  | nil => intro pre post h; cases h
  | cons x xs ih =>
    intro pre post h
    simp only [splitFirst] at h
    cases hd : dropPat pat (x :: xs) with
    | some rest =>
      rw [hd] at h
      obtain ⟨hpre, hpost⟩ := Prod.mk.injEq .. ▸ Option.some.injEq .. ▸ h
      rw [← hpre, ← hpost]
      simpa using dropPat_structure pat (x :: xs) rest hd
    | none =>
      rw [hd] at h
      cases hs : splitFirst pat xs with
      | some q =>
        obtain ⟨pre2, post2⟩ := q
        rw [hs] at h
        obtain ⟨hpre, hpost⟩ := Prod.mk.injEq .. ▸ Option.some.injEq .. ▸ h
        rw [← hpre, ← hpost]
        have := ih pre2 post2 hs
        simp [this]
      | none => rw [hs] at h; cases h

theorem splitFirst_post_length {pat : List Char} (hpat : pat ≠ []) :
    ∀ l pre post, splitFirst pat l = some (pre, post) →
      post.length + 1 ≤ l.length := by
  intro l pre post h
  have := splitFirst_structure pat l pre post h
  have hlen : l.length = pre.length + pat.length + post.length := by
    rw [this]; simp; omega
  have : 1 ≤ pat.length := List.length_pos.mpr hpat
  omega

theorem replaceTextByOldReg_ne_nil {s : List Char} (h : s ≠ []) :
    replaceTextByOldReg s ≠ [] := by
  cases s with
  | nil => exact absurd rfl h
  | cons ch cs =>
    unfold replaceTextByOldReg
    cases hm : matchTagged '#' '$' (ch :: cs) with
    | some p =>
      obtain ⟨ds, tail⟩ := p
      rw [scanTagged_cons_some _ _ hm]
      simp [flatSegs, mkCurrent]
    | none =>
      rw [scanTagged_cons_none _ _ hm, flat_consText]
      simp

theorem replaceThinkToSection_ne_nil {s : List Char} (h : s ≠ []) :
    replaceThinkToSection s ≠ [] := by
  cases s with
  | nil => exact absurd rfl h
  | cons x xs =>
    show thinkGo (xs.length + 1) (x :: xs) ≠ []
    simp only [thinkGo]
    split
    · split
      · simp [sectOpenL]
      · simp [sectOpenL]
    · simp

theorem preprocessLaTeX_ne_nil {s : List Char} (h : s ≠ []) :
    preprocessLaTeX s ≠ [] := by
  cases s with
  | nil => exact absurd rfl h
  | cons ch rest =>
    show mathGo (rest.length + 1) false (ch :: rest) ≠ []
    simp only [mathGo]
    split
    · simp
    · simp only [Bool.false_eq_true, if_false]
      split
      · split
        · split <;> simp
        · split <;> simp
        · simp
      · simp

theorem normalizePipeline_ne_nil {s : List Char} (h : s ≠ []) :
    normalizePipeline s ≠ [] :=
  preprocessLaTeX_ne_nil (replaceThinkToSection_ne_nil (replaceTextByOldReg_ne_nil h))

theorem renderSeg_marker (ref : IReference) (thumbs : String → Option String)
    (ds : List Char) :
    renderSeg ref thumbs (Seg.marker ds) =
      RNode.annot (digitsToNat ds) (renderDecisionOf ref thumbs (digitsToNat ds)) := rfl

/-- The flat annotation indices of rendered segments are the scanned
marker indices, in order. -/
theorem annIdxOfList_renderSegs (ref : IReference) (thumbs : String → Option String)
    (segs : List Seg) :
    annIdxOfList (segs.map (renderSeg ref thumbs)) = segIndices segs := by
  induction segs with
  | nil => rfl
  | cons sg rest ih =>
    cases sg with
    | text t => simpa [renderSeg, annIdxOfList, segIndices] using ih
    | marker ds =>
      simpa [renderSeg, renderCitation, annIdxOfList, segIndices] using ih

/-- The flat text values of rendered segments are the scanned text
segments, in order. -/
theorem textValsOfList_renderSegs (ref : IReference) (thumbs : String → Option String)
    (segs : List Seg) :
    textValsOfList (segs.map (renderSeg ref thumbs)) =
      (segs.filterMap fun sg =>
        match sg with
        | Seg.text t => some t
        | Seg.marker _ => none) := by
  induction segs with
  | nil => rfl
  | cons sg rest ih =>
    cases sg with
    | text t => simpa [renderSeg, textValsOfList] using ih
    | marker ds => simpa [renderSeg, renderCitation, textValsOfList] using ih

/-- Tree-level annotation indices of rendered segments. -/
theorem annIndicesList_renderSegs (ref : IReference) (thumbs : String → Option String)
    (segs : List Seg) :
    annIndicesList (segs.map (renderSeg ref thumbs)) = segIndices segs := by
  induction segs with
  | nil => rfl
  | cons sg rest ih =>
    cases sg with
    | text t =>
      simp only [List.map_cons, annIndicesList, renderSeg, annIndices,
        List.nil_append, ih, segIndices]
    | marker ds =>
      simp only [List.map_cons, annIndicesList, renderSeg, renderCitation,
        annIndices, ih, segIndices, List.singleton_append]

/-- No text node among the rendered segments of a scan carries a marker
occurrence. -/
theorem rTextMarkerFreeList_renderReference (ref : IReference)
    (thumbs : String → Option String) (uc : Bool) (s : List Char) :
    rTextMarkerFreeList uc (renderReference ref thumbs s) = true := by
  unfold renderReference
  have hfree : ∀ t, Seg.text t ∈ scanTagged '~' '=' s → hasMatch '~' '=' t = false :=
    fun t ht => scan_text_no_match '~' '=' (by decide) s t ht
  generalize hsegs : scanTagged '~' '=' s = segs at hfree
  clear hsegs
  induction segs with
  | nil => rfl
  | cons sg rest ih =>
    cases sg with
    | text t =>
      have h1 := hfree t (List.mem_cons_self _ _)
      simp only [List.map_cons, rTextMarkerFreeList, renderSeg, rTextMarkerFree, h1]
      simp only [Bool.not_false, Bool.or_true, Bool.true_and]
      exact ih fun t2 ht2 => hfree t2 (List.mem_cons_of_mem _ ht2)
    | marker ds =>
      simp only [List.map_cons, rTextMarkerFreeList, renderSeg, renderCitation,
        rTextMarkerFree, Bool.true_and]
      exact ih fun t2 ht2 => hfree t2 (List.mem_cons_of_mem _ ht2)

theorem digit_ne (x : Char) (hx : x.isDigit) (y : Char) (hy : ¬ y.isDigit) : x ≠ y :=
  fun h => hy (h ▸ hx)

theorem dropWhile_head_not {p : Char → Bool} :
    ∀ {l : List Char} {z : Char} {zs : List Char},
      l.dropWhile p = z :: zs → ¬ p z := by
  intro l
  induction l with
  | nil => intro z zs h; cases h
  | cons x xs ih =>
    intro z zs h
    by_cases hx : p x
    · rw [List.dropWhile_cons_of_pos hx] at h
      exact ih h
    · rw [List.dropWhile_cons_of_neg hx] at h
      obtain ⟨h1, -⟩ := (List.cons.injEq .. ▸ h : _ ∧ _)
      exact h1 ▸ hx

theorem dropWhile_of_takeWhile_nil {p : Char → Bool} :
    ∀ {l : List Char}, l.takeWhile p = [] → l.dropWhile p = l := by
  intro l h
  cases l with
  | nil => rfl
  | cons x xs =>
    by_cases hx : p x
    · rw [List.takeWhile_cons_of_pos hx] at h
      cases h
    · exact List.dropWhile_cons_of_neg hx

theorem replaceOld_nil : replaceTextByOldReg [] = [] := rfl

theorem replaceOld_cons_some {ch : Char} {cs ds tail : List Char}
    (h : matchTagged '#' '$' (ch :: cs) = some (ds, tail)) :
    replaceTextByOldReg (ch :: cs) = mkCurrent ds ++ replaceTextByOldReg tail := by
  unfold replaceTextByOldReg
  rw [scanTagged_cons_some _ _ h]
  rfl

theorem replaceOld_cons_none {ch : Char} {cs : List Char}
    (h : matchTagged '#' '$' (ch :: cs) = none) :
    replaceTextByOldReg (ch :: cs) = ch :: replaceTextByOldReg cs := by
  unfold replaceTextByOldReg
  rw [scanTagged_cons_none _ _ h, flat_consText]

theorem replaceOld_single (x : Char) : replaceTextByOldReg [x] = [x] := by
  rw [replaceOld_cons_none (matchTagged_none_single '#' '$' x), replaceOld_nil]

/-- The upgrade pass is transparent to a leading digit run. -/
theorem replaceOld_digit_run :
    ∀ ds r, (∀ d ∈ ds, d.isDigit) →
      replaceTextByOldReg (ds ++ r) = ds ++ replaceTextByOldReg r := by
  intro ds
  induction ds with
  | nil => intro r _; rfl
  | cons d ds2 ih =>
    intro r hall
    have hd : d.isDigit := hall d (by simp)
    have hne : d ≠ '#' := digit_ne d hd '#' (by decide)
    rw [List.cons_append, replaceOld_cons_none (matchTagged_head_ne _ _ hne _)]
    rw [ih r fun y hy => hall y (by simp [hy])]
    simp

/-- The upgrade pass commutes with splitting at the leading digit run. -/
theorem replaceOld_takeWhile_digits (r : List Char) :
    (replaceTextByOldReg r).takeWhile Char.isDigit = r.takeWhile Char.isDigit ∧
    (replaceTextByOldReg r).dropWhile Char.isDigit =
      replaceTextByOldReg (r.dropWhile Char.isDigit) := by
  have hds : r.takeWhile Char.isDigit ++ r.dropWhile Char.isDigit = r :=
    List.takeWhile_append_dropWhile _ _
  have hall : ∀ d ∈ r.takeWhile Char.isDigit, d.isDigit :=
    fun d hd => List.mem_takeWhile_imp hd
  have hrw : replaceTextByOldReg r =
      r.takeWhile Char.isDigit ++ replaceTextByOldReg (r.dropWhile Char.isDigit) := by
    conv => lhs; rw [← hds]
    exact replaceOld_digit_run _ _ hall
  have hhead : (replaceTextByOldReg (r.dropWhile Char.isDigit)).takeWhile Char.isDigit = [] := by
    cases hr2 : r.dropWhile Char.isDigit with
    | nil => rfl
    | cons z zs =>
      have hz : ¬ z.isDigit := dropWhile_head_not hr2
      cases hm : matchTagged '#' '$' (z :: zs) with
      | some p =>
        obtain ⟨ds3, t3⟩ := p
        rw [replaceOld_cons_some hm]
        simp only [mkCurrent, List.cons_append]
        rw [List.takeWhile_cons_of_neg (by decide)]
      | none =>
        rw [replaceOld_cons_none hm]
        rw [List.takeWhile_cons_of_neg (by simpa using hz)]
  constructor
  · rw [hrw, takeWhile_all_append _ _ _ hall, hhead, List.append_nil]
  · rw [hrw, dropWhile_all_append _ _ _ hall, dropWhile_of_takeWhile_nil hhead]

theorem matchTagged_open_open (o c : Char) (L : List Char) :
    matchTagged o c (o :: o :: L) =
      match L.dropWhile Char.isDigit with
      | z :: w :: tail =>
        if z = c ∧ w = c ∧ L.takeWhile Char.isDigit ≠ []
        then some (L.takeWhile Char.isDigit, tail) else none
      | _ => none := by
  simp only [matchTagged, if_pos (And.intro rfl rfl)]
  rw [if_pos ⟨trivial, trivial⟩]

theorem matchTagged_oo_none (o c : Char) (L : List Char)
    (h : L.takeWhile Char.isDigit = [] ∨
         ∀ z w tail, L.dropWhile Char.isDigit = z :: w :: tail → ¬ (z = c ∧ w = c)) :
    matchTagged o c (o :: o :: L) = none := by
  rw [matchTagged_open_open]
  split
  next z w tail heq =>
    rcases h with h1 | h2
    · rw [if_neg (by simp [h1])]
    · rw [if_neg fun hc => h2 z w tail heq ⟨hc.1, hc.2.1⟩]
  next => rfl

theorem matchTagged_oo_some (o c : Char) (hc : ¬ c.isDigit)
    {L : List Char} {z w : Char} {tail : List Char}
    (hd : L.dropWhile Char.isDigit = z :: w :: tail)
    (hz : z = c) (hw : w = c) (hds : L.takeWhile Char.isDigit ≠ []) :
    matchTagged o c (o :: o :: L) = some (L.takeWhile Char.isDigit, tail) := by
  have hL : L = L.takeWhile Char.isDigit ++ (c :: c :: tail) := by
    conv => lhs; rw [← List.takeWhile_append_dropWhile Char.isDigit L]
    rw [hd, hz, hw]
  have hmk : o :: o :: L = markerText o c (L.takeWhile Char.isDigit) ++ tail := by
    rw [markerText]
    conv => lhs; rw [hL]
    simp
  rw [hmk]
  exact matchTagged_marker o c hc tail hds fun d hd2 => List.mem_takeWhile_imp hd2

/-- A failed legacy-marker match stays failed after the upgrade pass
rewrites the rest of the string: the pass cannot create a legacy-marker
occurrence at a position where none was. -/
theorem replaceOld_match_none :
    ∀ {l : List Char}, matchTagged '#' '$' l = none →
      matchTagged '#' '$' (replaceTextByOldReg l) = none := by
  intro l h
  match l with
  | [] => rfl
  | [x] => rw [replaceOld_single]; exact matchTagged_none_single _ _ x
  | x :: y :: r =>
    by_cases hx : x = '#'
    case neg =>
      rw [replaceOld_cons_none h]
      exact matchTagged_head_ne _ _ hx _
    case pos =>
      subst hx
      by_cases hy : y = '#'
      case neg =>
        rw [replaceOld_cons_none h]
        cases hm2 : matchTagged '#' '$' (y :: r) with
        | some p =>
          obtain ⟨ds2, t2⟩ := p
          rw [replaceOld_cons_some hm2]
          simp only [mkCurrent, List.cons_append]
          exact matchTagged_second_ne _ _ (by decide) _ _
        | none =>
          rw [replaceOld_cons_none hm2]
          exact matchTagged_second_ne _ _ hy _ _
      case pos =>
        subst hy
        rw [replaceOld_cons_none h]
        cases hm2 : matchTagged '#' '$' ('#' :: r) with
        | some p =>
          obtain ⟨ds2, t2⟩ := p
          rw [replaceOld_cons_some hm2]
          simp only [mkCurrent, List.cons_append]
          exact matchTagged_second_ne _ _ (by decide) _ _
        | none =>
          rw [replaceOld_cons_none hm2]
          obtain ⟨htw, hdw⟩ := replaceOld_takeWhile_digits r
          by_cases hds : r.takeWhile Char.isDigit = []
          · exact matchTagged_oo_none '#' '$' _ (Or.inl (htw.trans hds))
          · refine matchTagged_oo_none '#' '$' _ (Or.inr ?_)
            intro z w tail hzw hcond
            rw [hdw] at hzw
            -- hzw : replaceTextByOldReg (r.dropWhile Char.isDigit) = z :: w :: tail
            cases hr2 : r.dropWhile Char.isDigit with
            | nil =>
              rw [hr2, replaceOld_nil] at hzw
              cases hzw
            | cons z0 zs =>
              cases zs with
              | nil =>
                rw [hr2, replaceOld_single] at hzw
                cases hzw
              | cons w0 t0 =>
                rw [hr2] at hzw
                have hfact : ¬ (z0 = '$' ∧ w0 = '$') := by
                  intro hzw0
                  rw [matchTagged_oo_some '#' '$' (by decide) hr2 hzw0.1 hzw0.2 hds] at h
                  cases h
                cases hm3 : matchTagged '#' '$' (z0 :: w0 :: t0) with
                | some p3 =>
                  obtain ⟨ds3, t3⟩ := p3
                  rw [replaceOld_cons_some hm3] at hzw
                  simp only [mkCurrent, List.cons_append, List.cons.injEq] at hzw
                  exact absurd (hzw.1 ▸ hcond.1) (by decide)
                | none =>
                  rw [replaceOld_cons_none hm3] at hzw
                  obtain ⟨hz0, hzw2⟩ := (List.cons.injEq .. ▸ hzw : _ ∧ _)
                  have hz0d : z0 = '$' := hz0 ▸ hcond.1
                  have hw0 : w0 ≠ '$' := fun hww => hfact ⟨hz0d, hww⟩
                  cases hm4 : matchTagged '#' '$' (w0 :: t0) with
                  | some p4 =>
                    obtain ⟨ds4, t4⟩ := p4
                    rw [replaceOld_cons_some hm4] at hzw2
                    simp only [mkCurrent, List.cons_append, List.cons.injEq] at hzw2
                    exact absurd (hzw2.1 ▸ hcond.2) (by decide)
                  | none =>
                    rw [replaceOld_cons_none hm4] at hzw2
                    obtain ⟨hw0e, -⟩ := (List.cons.injEq .. ▸ hzw2 : _ ∧ _)
                    exact hw0 (hw0e ▸ hcond.2)

theorem mkCurrent_no_hash {ds : List Char} (hdig : ∀ d ∈ ds, d.isDigit) :
    ∀ x ∈ mkCurrent ds, x.isDigit ∨ x = '~' ∨ x = '=' := by
  intro x hx
  simp only [mkCurrent, List.mem_cons, List.mem_append, List.mem_singleton] at hx
  rcases hx with (rfl | rfl | hds) | rfl | rfl | hnil
  · exact Or.inr (Or.inl rfl)
  · exact Or.inr (Or.inl rfl)
  · exact Or.inl (hdig x hds)
  · exact Or.inr (Or.inr rfl)
  · exact Or.inr (Or.inr rfl)
  · exact absurd hnil (List.not_mem_nil x)

theorem matchTagged_drop_none_append (b : List Char)
    (hb : ∀ n, matchTagged '#' '$' (b.drop n) = none) :
    ∀ a, (∀ x ∈ a, x ≠ '#') →
      ∀ n, matchTagged '#' '$' ((a ++ b).drop n) = none := by
  intro a
  induction a with
  | nil => intro _; simpa using hb
  | cons x xs ih =>
    intro ha n
    cases n with
    | zero =>
      simp only [List.cons_append, List.drop_zero]
      exact matchTagged_head_ne _ _ (ha x (by simp)) _
    | succ m =>
      simp only [List.cons_append, List.drop_succ_cons]
      exact ih (fun y hy => ha y (by simp [hy])) m

/-- After the upgrade pass, no legacy marker matches at any position. -/
theorem replaceOld_matchFree (s : List Char) :
    ∀ n, matchTagged '#' '$' ((replaceTextByOldReg s).drop n) = none := by
  have H : ∀ k s, s.length ≤ k →
      ∀ n, matchTagged '#' '$' ((replaceTextByOldReg s).drop n) = none := by
    intro k
    induction k with
    | zero =>
      intro s hs n
      have : s = [] := List.eq_nil_of_length_eq_zero (Nat.le_zero.mp hs)
      subst this
      rw [replaceOld_nil]
      simp [matchTagged]
    | succ k ih =>
      intro s hs n
      cases s with
      | nil =>
        rw [replaceOld_nil]
        simp [matchTagged]
      | cons ch cs =>
        simp only [List.length_cons] at hs
        cases hm : matchTagged '#' '$' (ch :: cs) with
        | some p =>
          obtain ⟨ds, tail⟩ := p
          have hlen := matchTagged_some_length _ _ hm
          simp only [List.length_cons] at hlen
          obtain ⟨-, -, hdig⟩ := matchTagged_some _ _ hm
          rw [replaceOld_cons_some hm]
          refine matchTagged_drop_none_append _ (ih tail (by omega)) (mkCurrent ds) ?_ n
          intro x hx
          rcases mkCurrent_no_hash hdig x hx with hd | rfl | rfl
          · exact digit_ne x hd '#' (by decide)
          · decide
          · decide
        | none =>
          rw [replaceOld_cons_none hm]
          cases n with
          | zero =>
            simp only [List.drop_zero]
            rw [← replaceOld_cons_none hm]
            exact replaceOld_match_none hm
          | succ m =>
            simp only [List.drop_succ_cons]
            exact ih cs (by omega) m
  exact H s.length s le_rfl

/-- A string in which no legacy marker matches anywhere is left unchanged
by the upgrade pass. -/
theorem replaceOld_of_matchFree :
    ∀ s, (∀ n, matchTagged '#' '$' (s.drop n) = none) →
      replaceTextByOldReg s = s := by
  have H : ∀ k s, s.length ≤ k →
      (∀ n, matchTagged '#' '$' (s.drop n) = none) →
      replaceTextByOldReg s = s := by
    intro k
    induction k with
    | zero =>
      intro s hs _
      have : s = [] := List.eq_nil_of_length_eq_zero (Nat.le_zero.mp hs)
      subst this
      rfl
    | succ k ih =>
      intro s hs hfree
      cases s with
      | nil => rfl
      | cons ch cs =>
        simp only [List.length_cons] at hs
        have h0 : matchTagged '#' '$' (ch :: cs) = none := by simpa using hfree 0
        rw [replaceOld_cons_none h0]
        rw [ih cs (by omega) fun n => by simpa [List.drop_succ_cons] using hfree (n + 1)]
  exact fun s => H s.length s le_rfl

theorem shouldWrap_false {p : String} (h : shouldWrap p = false) :
    p = "custom-typography" ∨ p = "code" := by
  by_cases h1 : p = "custom-typography"
  · exact Or.inl h1
  · by_cases h2 : p = "code"
    · exact Or.inr h2
    · exfalso
      simp [shouldWrap, h1, h2] at h

theorem renderTree_ct_text (ref : IReference) (thumbs : String → Option String)
    (v : List Char) :
    renderTree ref thumbs (HNode.element "custom-typography" [HNode.text v]) =
      RNode.element "custom-typography" (renderReference ref thumbs v) := rfl

theorem renderTree_other (ref : IReference) (thumbs : String → Option String)
    {tag : String} (h : tag ≠ "custom-typography") (cs : List HNode) :
    renderTree ref thumbs (HNode.element tag cs) =
      RNode.element tag (renderList ref thumbs cs) := by
  simp only [renderTree, if_neg h]

mutual
theorem treeMarkerIndices_length (p : String) (t : HNode) :
    (treeMarkerIndices p t).length = treeMarkerOcc p t := by
  cases t with
  | text v =>
    simp only [treeMarkerIndices, treeMarkerOcc]
    by_cases hw : shouldWrap p = true
    · rw [if_pos hw, if_pos hw, segIndices_length]
      exact scan_count '~' '=' (by decide) (by decide) v
    · rw [if_neg hw, if_neg hw]
      rfl
  | element tag cs =>
    simp only [treeMarkerIndices, treeMarkerOcc]
    exact treeMarkerIndicesList_length tag cs
theorem treeMarkerIndicesList_length (tag : String) (ts : List HNode) :
    (treeMarkerIndicesList tag ts).length = treeMarkerOccList tag ts := by
  cases ts with
  | nil => rfl
  | cons n ns =>
    simp only [treeMarkerIndicesList, treeMarkerOccList, List.length_append]
    rw [treeMarkerIndices_length tag n, treeMarkerIndicesList_length tag ns]
end

mutual
/-- The annotation indices of the resolved tree are exactly the marker
indices of the processed text nodes, in document order. -/
theorem annIndices_resolve (ref : IReference) (thumbs : String → Option String)
    (t : HNode) (p : String) (hct : ctFree t = true) (hp : p ≠ "custom-typography") :
    annIndices (renderTree ref thumbs (wrapNode p t)) = treeMarkerIndices p t := by
  cases t with
  | text v =>
    simp only [wrapNode, treeMarkerIndices]
    by_cases hw : shouldWrap p = true
    · rw [if_pos hw, if_pos hw, renderTree_ct_text]
      simp only [annIndices]
      exact annIndicesList_renderSegs ref thumbs _
    · rw [if_neg hw, if_neg hw]
      rfl
  | element tag cs =>
    simp only [ctFree, Bool.and_eq_true, bne_iff_ne, ne_eq] at hct
    obtain ⟨htag, hcs⟩ := hct
    simp only [wrapNode, treeMarkerIndices]
    rw [renderTree_other ref thumbs htag]
    simp only [annIndices]
    exact annIndices_resolveList ref thumbs cs tag hcs htag
theorem annIndices_resolveList (ref : IReference) (thumbs : String → Option String)
    (ts : List HNode) (tag : String) (hct : ctFreeList ts = true)
    (htag : tag ≠ "custom-typography") :
    annIndicesList (renderList ref thumbs (wrapList tag ts)) =
      treeMarkerIndicesList tag ts := by
  cases ts with
  | nil => rfl
  | cons n ns =>
    simp only [ctFreeList, Bool.and_eq_true] at hct
    obtain ⟨hn, hns⟩ := hct
    simp only [wrapList, renderList, annIndicesList, treeMarkerIndicesList]
    rw [annIndices_resolve ref thumbs n tag hn htag,
      annIndices_resolveList ref thumbs ns tag hns htag]
end

mutual
/-- Every text node of the resolved tree outside `code` elements is free
of marker occurrences. -/
theorem rTextMarkerFree_resolve (ref : IReference) (thumbs : String → Option String)
    (t : HNode) (p : String) (uc : Bool) (hct : ctFree t = true)
    (hp : p ≠ "custom-typography") (hcode : p = "code" → uc = true) :
    rTextMarkerFree uc (renderTree ref thumbs (wrapNode p t)) = true := by
  cases t with
  | text v =>
    simp only [wrapNode]
    by_cases hw : shouldWrap p = true
    · rw [if_pos hw, renderTree_ct_text]
      simp only [rTextMarkerFree]
      exact rTextMarkerFreeList_renderReference ref thumbs _ v
    · rw [if_neg hw]
      rcases shouldWrap_false (Bool.eq_false_iff.mpr hw) with h1 | h2
      · exact absurd h1 hp
      · simp only [renderTree, rTextMarkerFree, hcode h2, Bool.true_or]
  | element tag cs =>
    simp only [ctFree, Bool.and_eq_true, bne_iff_ne, ne_eq] at hct
    obtain ⟨htag, hcs⟩ := hct
    simp only [wrapNode]
    rw [renderTree_other ref thumbs htag]
    simp only [rTextMarkerFree]
    exact rTextMarkerFree_resolveList ref thumbs cs tag _ hcs htag
      (fun h => by simp [h])
theorem rTextMarkerFree_resolveList (ref : IReference) (thumbs : String → Option String)
    (ts : List HNode) (tag : String) (uc : Bool) (hct : ctFreeList ts = true)
    (htag : tag ≠ "custom-typography") (hcode : tag = "code" → uc = true) :
    rTextMarkerFreeList uc (renderList ref thumbs (wrapList tag ts)) = true := by
  cases ts with
  | nil => rfl
  | cons n ns =>
    simp only [ctFreeList, Bool.and_eq_true] at hct
    obtain ⟨hn, hns⟩ := hct
    simp only [wrapList, renderList, rTextMarkerFreeList, Bool.and_eq_true]
    exact ⟨rTextMarkerFree_resolve ref thumbs n tag uc hn htag hcode,
      rTextMarkerFree_resolveList ref thumbs ns tag uc hns htag hcode⟩
end

/-- Out of range, every field of `getReferenceInfo` is absent or empty. -/
theorem getReferenceInfo_out_of_range (ref : IReference) (thumbs : String → Option String)
    (n : Nat) (h : ref.chunks.length ≤ n) :
    getReferenceInfo ref thumbs n = ⟨none, none, "", none, none, none, none⟩ := by
  have hnone : ref.chunks[n]? = none := List.getElem?_eq_none h
  simp [getReferenceInfo, hnone, truthy]

/-- Out of range, the marker still renders, as an inert citation popover:
empty sanitized content, no image block, no document section. -/
theorem renderCitation_out_of_range (ref : IReference) (thumbs : String → Option String)
    (n : Nat) (h : ref.chunks.length ≤ n) :
    renderCitation ref thumbs n =
      RNode.annot n (RenderDecision.citationPopover ⟨none, [], none⟩) := by
  have hnone : ref.chunks[n]? = none := List.getElem?_eq_none h
  have hsan : sanitizeHtml [] = [] := rfl
  simp [renderCitation, renderDecisionOf, getReferenceInfo, hnone, showImage,
    getPopoverContent, truthy, hsan]

/-- C1: the claim that every piece of externally sourced content passes
through the Sanitizer before reaching an HTML-interpreting surface fails
on the code: the `DOMPurify.sanitize(content)` call in
`contentWithCursor` (index.tsx:51) is commented out, so a script-bearing
raw answer reaches the rendering surface unchanged — evaluated here at
the failing input `<script>alert(1)</script>`, which the normalization
passes forward verbatim while the sanitizer contract would have stripped
it entirely. -/
theorem C1_raw_answer_not_sanitized :
    contentWithCursor ("<script>alert(1)</script>".toList) ("Searching...".toList) =
      "<script>alert(1)</script>".toList
    ∧ sanitizeHtml ("<script>alert(1)</script>".toList) = [] :=
  ⟨by decide, by decide⟩

/-- C2: for every marker whose embedded index is at or beyond
`chunks.length`, rendering succeeds and produces an inert node: the chunk
lookup yields no chunk, every derived field (document, url, image id,
thumbnail, extension) degrades to an absent value, and the marker renders
as a citation popover with empty sanitized content. -/
theorem C2_out_of_range_inert (ref : IReference) (thumbs : String → Option String)
    (n : Nat) (h : ref.chunks.length ≤ n) :
    (getReferenceInfo ref thumbs n).chunkItem = none ∧
    (getReferenceInfo ref thumbs n).document = none ∧
    (getReferenceInfo ref thumbs n).documentId = none ∧
    (getReferenceInfo ref thumbs n).documentUrl = none ∧
    (getReferenceInfo ref thumbs n).imageId = none ∧
    (getReferenceInfo ref thumbs n).fileThumbnail = none ∧
    (getReferenceInfo ref thumbs n).fileExtension = "" ∧
    renderCitation ref thumbs n =
      RNode.annot n (RenderDecision.citationPopover ⟨none, [], none⟩) := by
  rw [getReferenceInfo_out_of_range ref thumbs n h]
  exact ⟨rfl, rfl, rfl, rfl, rfl, rfl, rfl, renderCitation_out_of_range ref thumbs n h⟩

theorem C2_witness :
    ((⟨[], []⟩ : IReference).chunks.length ≤ 3) ∧
    ((getReferenceInfo ⟨[], []⟩ (fun _ => none) 3).chunkItem = none ∧
     (getReferenceInfo ⟨[], []⟩ (fun _ => none) 3).document = none ∧
     (getReferenceInfo ⟨[], []⟩ (fun _ => none) 3).documentId = none ∧
     (getReferenceInfo ⟨[], []⟩ (fun _ => none) 3).documentUrl = none ∧
     (getReferenceInfo ⟨[], []⟩ (fun _ => none) 3).imageId = none ∧
     (getReferenceInfo ⟨[], []⟩ (fun _ => none) 3).fileThumbnail = none ∧
     (getReferenceInfo ⟨[], []⟩ (fun _ => none) 3).fileExtension = "" ∧
     renderCitation ⟨[], []⟩ (fun _ => none) 3 =
       RNode.annot 3 (RenderDecision.citationPopover ⟨none, [], none⟩)) :=
  ⟨by decide, C2_out_of_range_inert ⟨[], []⟩ (fun _ => none) 3 (by decide)⟩

/-- C3: for a parser-produced tree (no reserved tag) whose processed text
nodes carry only valid marker indices, the resolved tree contains exactly
one annotation node per marker occurrence — the annotation indices are
the parsed marker indices in document order, and their number is the
positional occurrence count — and no marker substring survives as text
outside code regions. -/
theorem C3_exactly_once (ref : IReference) (thumbs : String → Option String)
    (t : HNode) (hct : ctFree t = true)
    (hvalid : ∀ i ∈ treeMarkerIndices "" t, i < ref.chunks.length) :
    annIndices (resolveTree ref thumbs t) = treeMarkerIndices "" t ∧
    (annIndices (resolveTree ref thumbs t)).length = treeMarkerOcc "" t ∧
    rTextMarkerFree false (resolveTree ref thumbs t) = true := by
  refine ⟨?_, ?_, ?_⟩
  · exact annIndices_resolve ref thumbs t "" hct (by decide)
  · show (annIndices (renderTree ref thumbs (wrapNode "" t))).length = treeMarkerOcc "" t
    rw [annIndices_resolve ref thumbs t "" hct (by decide)]
    exact treeMarkerIndices_length "" t
  · exact rTextMarkerFree_resolve ref thumbs t "" false hct (by decide)
      fun hc => absurd hc (by decide)

theorem C3_witness :
    (ctFree (HNode.element "root" [HNode.text ("a~~0==b".toList)]) = true) ∧
    (∀ i ∈ treeMarkerIndices "" (HNode.element "root" [HNode.text ("a~~0==b".toList)]),
      i < (⟨[⟨"c0", "d0", "x".toList, none, none⟩], []⟩ : IReference).chunks.length) ∧
    (annIndices (resolveTree ⟨[⟨"c0", "d0", "x".toList, none, none⟩], []⟩ (fun _ => none)
        (HNode.element "root" [HNode.text ("a~~0==b".toList)])) =
      treeMarkerIndices "" (HNode.element "root" [HNode.text ("a~~0==b".toList)]) ∧
     (annIndices (resolveTree ⟨[⟨"c0", "d0", "x".toList, none, none⟩], []⟩ (fun _ => none)
        (HNode.element "root" [HNode.text ("a~~0==b".toList)]))).length =
      treeMarkerOcc "" (HNode.element "root" [HNode.text ("a~~0==b".toList)]) ∧
     rTextMarkerFree false (resolveTree ⟨[⟨"c0", "d0", "x".toList, none, none⟩], []⟩
        (fun _ => none)
        (HNode.element "root" [HNode.text ("a~~0==b".toList)])) = true) :=
  ⟨by decide, by decide, C3_exactly_once _ _ _ (by decide) (by decide)⟩

/-- C4 counterexample: the wrap pass checks only the immediate parent
(`ancestors.at(-1)`, index.tsx:88), not every ancestor, so a marker
nested below a `code` element at depth two — here `code > em > text` — is
still converted into an annotation node, refuting the claim that a
marker anywhere inside a code region, at any nesting depth, is never
annotated. -/
theorem C4_counterexample :
    annIndices (resolveTree ⟨[⟨"c0", "d0", "x".toList, none, none⟩], []⟩ (fun _ => none)
      (HNode.element "root" [HNode.element "code"
        [HNode.element "em" [HNode.text ("~~0==".toList)]]])) = [0] := by decide

/-- C4 amended: a text node is skipped when its immediate parent is a
`code` or `custom-typography` element: the wrap pass leaves it unchanged
and its rendering contains no annotation node, so a marker directly
inside a code element is never converted into an annotation node. -/
theorem C4_amended_parent_skip (ref : IReference) (thumbs : String → Option String)
    (tag : String) (v : List Char)
    (h : tag = "code" ∨ tag = "custom-typography") :
    wrapNode tag (HNode.text v) = HNode.text v ∧
    annIndices (renderTree ref thumbs (wrapNode tag (HNode.text v))) = [] := by
  have hw : shouldWrap tag = false := by
    rcases h with rfl | rfl
    · decide
    · decide
  constructor
  · simp [wrapNode, hw]
  · simp [wrapNode, hw, renderTree, annIndices]

theorem C4_witness :
    ("code" = "code" ∨ "code" = "custom-typography") ∧
    (wrapNode "code" (HNode.text ("~~0==".toList)) = HNode.text ("~~0==".toList) ∧
     annIndices (renderTree ⟨[], []⟩ (fun _ => none)
       (wrapNode "code" (HNode.text ("~~0==".toList)))) = []) :=
  ⟨Or.inl rfl, C4_amended_parent_skip ⟨[], []⟩ (fun _ => none) "code" _ (Or.inl rfl)⟩

/-- C5 counterexample: a marker with an out-of-range index is not left in
the output as literal text: rendering `~~5==` against an empty reference
table yields one annotation node and no text node at all — the marker
text is consumed, not passed through. -/
theorem C5_counterexample :
    textValsOfList (renderReference ⟨[], []⟩ (fun _ => none) ("~~5==".toList)) = [] ∧
    annIdxOfList (renderReference ⟨[], []⟩ (fun _ => none) ("~~5==".toList)) = [5] :=
  ⟨by decide, by decide⟩

/-- C5 amended: a marker whose embedded index is out of range is not left
as literal text: like every marker it is replaced by an annotation node,
which renders as an inert citation popover (empty sanitized content, no
image block, no document section). -/
theorem C5_amended_invalid_replaced (ref : IReference) (thumbs : String → Option String)
    (n : Nat) (h : ref.chunks.length ≤ n) :
    renderCitation ref thumbs n =
      RNode.annot n (RenderDecision.citationPopover ⟨none, [], none⟩) :=
  renderCitation_out_of_range ref thumbs n h

theorem C5_witness :
    ((⟨[], []⟩ : IReference).chunks.length ≤ 5) ∧
    renderCitation ⟨[], []⟩ (fun _ => none) 5 =
      RNode.annot 5 (RenderDecision.citationPopover ⟨none, [], none⟩) :=
  ⟨by decide, C5_amended_invalid_replaced ⟨[], []⟩ (fun _ => none) 5 (by decide)⟩

/-- C6: the render mode of a resolved marker is decided solely by the
referenced chunk's doc_type: when `showImage` holds the marker renders as
inline media carrying the chunk's image id, otherwise as a citation
popover. -/
theorem C6_render_mode (ref : IReference) (thumbs : String → Option String)
    (n : Nat) (ch : IReferenceChunk) (h : ref.chunks[n]? = some ch) :
    (showImage ch.doc_type = true →
      mediaIdOf (renderCitation ref thumbs n) = some ch.image_id) ∧
    (showImage ch.doc_type = false →
      isPopoverNode (renderCitation ref thumbs n) = true) := by
  constructor
  · intro hs
    simp [renderCitation, renderDecisionOf, getReferenceInfo, h, hs, mediaIdOf]
  · intro hs
    simp [renderCitation, renderDecisionOf, getReferenceInfo, h, hs, isPopoverNode]

theorem C6_witness :
    ((⟨[⟨"c0", "d0", [], some "img1", some "image"⟩], []⟩ : IReference).chunks[0]? =
      some ⟨"c0", "d0", [], some "img1", some "image"⟩) ∧
    showImage (some "image") = true ∧
    mediaIdOf (renderCitation ⟨[⟨"c0", "d0", [], some "img1", some "image"⟩], []⟩
      (fun _ => none) 0) = some (some "img1") :=
  ⟨by decide, rfl,
    (C6_render_mode ⟨[⟨"c0", "d0", [], some "img1", some "image"⟩], []⟩ (fun _ => none) 0
      ⟨"c0", "d0", [], some "img1", some "image"⟩ (by decide)).1 rfl⟩

/-- C7: an orphan chunk — one whose document id occurs in no document
aggregate — still renders its citation popover with partial information:
the payload carries the sanitized chunk content and no document section
(hence no document name, thumbnail or navigable link). -/
theorem C7_orphan_partial (ref : IReference) (thumbs : String → Option String)
    (n : Nat) (ch : IReferenceChunk) (h : ref.chunks[n]? = some ch)
    (horph : ∀ d ∈ ref.doc_aggs, d.doc_id ≠ ch.document_id) :
    (getPopoverContent ref thumbs n).contentHtml = sanitizeHtml ch.content ∧
    (getPopoverContent ref thumbs n).docSection = none := by
  have hfind : ref.doc_aggs.find? (fun x => x.doc_id == ch.document_id) = none :=
    List.find?_eq_none.mpr fun x hx => by simpa using horph x hx
  constructor
  · simp [getPopoverContent, getReferenceInfo, h, hfind, truthy]
  · simp [getPopoverContent, getReferenceInfo, h, hfind, truthy]

theorem C7_witness :
    ((⟨[⟨"c1", "missing", "see".toList, none, none⟩],
        [⟨"other", "o.pdf", none⟩]⟩ : IReference).chunks[0]? =
      some ⟨"c1", "missing", "see".toList, none, none⟩) ∧
    (∀ d ∈ (⟨[⟨"c1", "missing", "see".toList, none, none⟩],
        [⟨"other", "o.pdf", none⟩]⟩ : IReference).doc_aggs,
      d.doc_id ≠ ("missing" : String)) ∧
    ((getPopoverContent ⟨[⟨"c1", "missing", "see".toList, none, none⟩],
        [⟨"other", "o.pdf", none⟩]⟩ (fun _ => none) 0).contentHtml =
      sanitizeHtml ("see".toList) ∧
     (getPopoverContent ⟨[⟨"c1", "missing", "see".toList, none, none⟩],
        [⟨"other", "o.pdf", none⟩]⟩ (fun _ => none) 0).docSection = none) :=
  ⟨by decide, by decide,
    C7_orphan_partial ⟨[⟨"c1", "missing", "see".toList, none, none⟩],
        [⟨"other", "o.pdf", none⟩]⟩ (fun _ => none) 0
      ⟨"c1", "missing", "see".toList, none, none⟩ (by decide) (by decide)⟩

/-- C8 counterexample: activating a citation whose document is not a pdf
and has no url does nothing: the handler returns without invoking
`clickDocumentButton`, refuting the claim that every resolved citation
without a direct document URL invokes the callback on activation. -/
theorem C8_counterexample :
    handleDocumentButtonClick "d0" none false none = ClickAction.noop ∧
    handleDocumentButtonClick "d0" none false none ≠
      ClickAction.invokeCallback "d0" none :=
  ⟨rfl, by decide⟩

/-- C8 amended: when the file type indicates pdf the click invokes
`clickDocumentButton(documentId, chunk)` regardless of the url; when it
is not pdf and a non-empty url exists the click navigates externally to
that url; when it is not pdf and the url is missing or empty the click is
a no-op — it does not invoke the callback. -/
theorem C8_amended_click (documentId : String) (chunk : Option IReferenceChunk)
    (url : Option String) :
    (∀ isPdf, isPdf = true →
      handleDocumentButtonClick documentId chunk isPdf url =
        ClickAction.invokeCallback documentId chunk) ∧
    (∀ u, url = some u → u ≠ "" →
      handleDocumentButtonClick documentId chunk false url = ClickAction.openUrl u) ∧
    (truthy url = false →
      handleDocumentButtonClick documentId chunk false url = ClickAction.noop) := by
  refine ⟨?_, ?_, ?_⟩
  · intro isPdf hp
    subst hp
    rfl
  · intro u hu hne
    subst hu
    have hemp : u.isEmpty = false := by
      rw [Bool.eq_false_iff]
      intro hc
      exact hne ((String.isEmpty_iff u).mp hc)
    have ht : truthy (some u) = true := by simp [truthy, hemp]
    simp [handleDocumentButtonClick, ht]
  · intro ht
    simp [handleDocumentButtonClick, ht]

theorem C8_witness :
    (true = true) ∧
    handleDocumentButtonClick "d0" none true none =
      ClickAction.invokeCallback "d0" none :=
  ⟨rfl, (C8_amended_click "d0" none none).1 true rfl⟩

/-- C9 counterexample: the composed normalization sequence is not
idempotent: on `##1\[x\]` the math pass of the first run produces
`##1$$x$$`, whose `$$` the legacy-marker upgrade then rewrites on the
second run to `~~1==x$$`. -/
theorem C9_counterexample :
    normalizePipeline (normalizePipeline ("##1\\[x\\]".toList)) ≠
      normalizePipeline ("##1\\[x\\]".toList) := by decide

/-- C9 amended: the first pass alone — the legacy-marker upgrade — is
idempotent on every input; the full composed sequence is not, since a
later pass can create text that the upgrade pass rewrites on a second
run. -/
theorem C9_amended_upgrade_idem (s : List Char) :
    replaceTextByOldReg (replaceTextByOldReg s) = replaceTextByOldReg s :=
  replaceOld_of_matchFree _ (replaceOld_matchFree s)

/-- C10: an empty raw answer is replaced by the localized searching
placeholder before normalization, so the rendered output is the
normalized placeholder — non-empty whenever the placeholder is — while a
non-empty answer is normalized as-is. -/
theorem C10_placeholder (content placeholder : List Char) :
    (content = [] →
      contentWithCursor content placeholder = normalizePipeline placeholder) ∧
    (content ≠ [] →
      contentWithCursor content placeholder = normalizePipeline content) ∧
    (content = [] → placeholder ≠ [] →
      contentWithCursor content placeholder ≠ []) := by
  refine ⟨?_, ?_, ?_⟩
  · intro h
    simp [contentWithCursor, h]
  · intro h
    simp [contentWithCursor, h]
  · intro h hp
    simp only [contentWithCursor, h, if_pos]
    exact normalizePipeline_ne_nil hp

theorem C10_witness :
    (([] : List Char) = [] ∧ ("Searching...".toList : List Char) ≠ []) ∧
    contentWithCursor [] ("Searching...".toList) =
      normalizePipeline ("Searching...".toList) ∧
    contentWithCursor [] ("Searching...".toList) ≠ [] :=
  ⟨⟨rfl, by decide⟩, (C10_placeholder [] _).1 rfl,
    (C10_placeholder [] _).2.2 rfl (by decide)⟩

end AlphaChat
